import Mathlib

/-!
Verification development for `doit-graph` (`doit_graph.py`).

The plugin builds a graphviz DAG of doit tasks.  We embed the data model
(the read-only task registry supplied by doit's `TaskControl`), the node
resolver `GraphCmd.node`, the edge accumulator `GraphCmd.add_edge`, the
file-link annotator `GraphCmd.get_connecting_files`, and the breadth-first
traversal of `GraphCmd._execute`, and prove the specified properties.

The pygraphviz `AGraph` is modelled as an explicit list of nodes and a list
of edges: `AGraph.add_edge` appends an edge, `AGraph.get_edge(u, v)`
returns the first edge from `u` to `v` (at most one ever exists per
ordered pair here, guarded by the `_edges` set), attribute update rewrites
that edge in place, and `AGraph.reverse` returns a flipped copy.
-/

namespace DoitGraph

/-- A doit task, as exposed by the registry (`TaskControl.tasks`).
`subtask_of` is `none` for top-level tasks; Python truthiness also treats
an empty string as absent, which we keep faithfully. -/
structure Task where
  name : String
  has_subtask : Bool
  subtask_of : Option String
  task_dep : List String
  setup_tasks : List String
  file_dep : List String
  targets : List String
deriving DecidableEq

/-- The task registry: `TaskControl.tasks` is a dict keyed by task name;
we model it as an association list looked up by `name`. -/
abbrev Registry := List Task

/-- Dict lookup `self.tasks[task_name]` / `self.tasks.get(task_name)`. -/
def lookupTask (reg : Registry) (name : String) : Option Task :=
  reg.find? (fun t => t.name == name)

/-- Python truthiness of an optional string: `None` and `""` are falsy. -/
def optTruthy : Option String → Bool
  | none => false
  | some s => !s.isEmpty

/-- The expression `task.subtask_of or task_name` (line 81). -/
def parentOr (t : Task) (task_name : String) : String :=
  match t.subtask_of with
  | some p => if p.isEmpty then task_name else p
  | none => task_name

/-- `GraphCmd.node` (lines 73-81): resolves a task name to the graph node
that represents it.  With `subtasks` set it returns the name unchanged;
otherwise it dereferences the registry (a `KeyError`, modelled as
`Except.error`, when the name is absent) and collapses a sub-task into
its parent. -/
def nodeOf (subtasks : Bool) (reg : Registry) (task_name : String) :
    Except String String :=
  if subtasks then .ok task_name
  else
    match lookupTask reg task_name with
    | none => .error task_name
    | some t => .ok (parentOr t task_name)

/-- Splits a character list at every slash (helper for `basename`). -/
def splitSlash : List Char → List Char → List (List Char)
  | [], cur => [cur.reverse]
  | c :: rest, cur =>
      if c = '/' then cur.reverse :: splitSlash rest []
      else splitSlash rest (c :: cur)

/-- `Path(str(f)).name`: the final path component.  `pathlib` drops empty
components and single-dot components, so the name is the last remaining
component (or the empty string when none remains). -/
def basename (s : String) : String :=
  match ((splitSlash s.data []).filter
      (fun c => !c.isEmpty && c ≠ ['.'])).getLast? with
  | some c => String.mk c
  | none => ""

/-- The body of `get_connecting_files` after both registry lookups
succeed (lines 115-126): intersect the basenames of the source's
`file_dep` with the basenames of the sink's `targets` and sort. -/
def connectingOfTasks (src_task sink_task : Task) : List String :=
  let src_file_deps := (src_task.file_dep.map basename).dedup
  let sink_targets := (sink_task.targets.map basename).dedup
  List.insertionSort (· ≤ ·)
    (src_file_deps.filter (fun f => decide (f ∈ sink_targets)))

/-- `GraphCmd.get_connecting_files` (lines 105-126): `.get` lookups never
raise; a missing task on either side yields `[]`. -/
def get_connecting_files (reg : Registry)
    (src_task_name sink_task_name : String) : List String :=
  match lookupTask reg src_task_name, lookupTask reg sink_task_name with
  | some src_task, some sink_task => connectingOfTasks src_task sink_task
  | _, _ => []

/-- An edge of the accumulated pygraphviz graph: ordered endpoint pair,
arrowhead style and optional label attribute. -/
structure GEdge where
  source : String
  sink : String
  arrowhead : String
  label : Option String
deriving DecidableEq

/-- The mutable state of one `_execute` run: the pygraphviz graph
(nodes carry the `peripheries="2"` flag), the `_edges` seen-pair set,
the `processed` set and the `to_process` deque. -/
structure BuildState where
  nodes : List (String × Bool)
  edges : List GEdge
  edgeSeen : List (String × String)
  processed : List String
  queue : List String
deriving DecidableEq

/-- Label update of lines 92-97: read `attr.get("label", "")`, append
with a literal `\n` separator when the existing label is non-empty. -/
def appendLabel (existing : Option String) (label : String) : String :=
  let existing_label := existing.getD ""
  if existing_label.isEmpty then label
  else existing_label ++ "\\n" ++ label

/-- `graph.get_edge(source, sink)` followed by the label assignment:
rewrites the first edge with the given endpoints. -/
def updateLabelIn : List GEdge → String → String → String → List GEdge
  | [], _, _, _ => []
  | e :: rest, a, b, label =>
      if e.source = a ∧ e.sink = b then
        { e with label := some (appendLabel e.label label) } :: rest
      else e :: updateLabelIn rest a b label

/-- `GraphCmd.add_edge` (lines 83-103): resolve both endpoints, elide
self-loops, and either append the label to an already-seen edge or
record the pair and add a fresh edge.  `if label:` treats `None` and
`""` as falsy. -/
def add_edge (subtasks : Bool) (reg : Registry) (st : BuildState)
    (src_name sink_name arrowhead : String) (label : Option String) :
    Except String BuildState :=
  match nodeOf subtasks reg src_name with
  | .error e => .error e
  | .ok source =>
    match nodeOf subtasks reg sink_name with
    | .error e => .error e
    | .ok sink =>
      if source = sink then .ok st
      else if (source, sink) ∈ st.edgeSeen then
        match label with
        | some l =>
            if l.isEmpty then .ok st
            else .ok { st with edges := updateLabelIn st.edges source sink l }
        | none => .ok st
      else
        .ok { st with
          edgeSeen := (source, sink) :: st.edgeSeen,
          edges := st.edges ++
            [{ source := source, sink := sink, arrowhead := arrowhead,
               label := match label with
                 | some l => if l.isEmpty then none else some l
                 | none => none }] }

/-- The label passed to `add_edge` for one dependency (lines 165-166 and
171-172): the connecting files joined with a literal `\n`, or `None`
when there are none. -/
def sinkLabel (reg : Registry) (src_name sink_name : String) :
    Option String :=
  let connecting_files := get_connecting_files reg src_name sink_name
  if connecting_files.isEmpty then none
  else some (String.intercalate "\\n" connecting_files)

/-- One edge-emission loop of `_execute` (lines 164-169 and 170-175):
for each sink compute the connecting files, call `add_edge`, and enqueue
the sink when it is not yet processed. -/
def processSinks (subtasks : Bool) (reg : Registry)
    (src_name arrowhead : String) :
    List String → BuildState → Except String BuildState
  | [], st => .ok st
  | sink_name :: rest, st =>
    match add_edge subtasks reg st src_name sink_name arrowhead
        (sinkLabel reg src_name sink_name) with
    | .error e => .error e
    | .ok st1 =>
      let st2 :=
        if sink_name ∈ st1.processed then st1
        else { st1 with queue := st1.queue ++ [sink_name] }
      processSinks subtasks reg src_name arrowhead rest st2

/-- Node emission (lines 156-161): a task gets its own node exactly when
it is top-level or sub-task display is enabled; the node carries the
double-border flag when the task has sub-tasks. -/
def addNodeFor (subtasks : Bool) (task : Task) (st : BuildState) :
    BuildState :=
  if !(optTruthy task.subtask_of) || subtasks then
    { st with nodes := st.nodes ++ [(task.name, task.has_subtask)] }
  else st

/-- The body of one traversal iteration after the task has been popped,
found and marked processed (lines 156-175): conditional node emission,
then the `setup_tasks` loop with arrowhead `"empty"`, then the
`task_dep` loop with the default arrowhead. -/
def processTask (subtasks : Bool) (reg : Registry) (task : Task)
    (st : BuildState) : Except String BuildState :=
  match processSinks subtasks reg task.name "empty" task.setup_tasks
      (addNodeFor subtasks task st) with
  | .error e => .error e
  | .ok st1 => processSinks subtasks reg task.name "" task.task_dep st1

/-- Result of a run of the `while to_process:` loop.  `keyError` is the
Python `KeyError` escaping `_execute`; `outOfFuel` only signals that the
supplied fuel bound was insufficient. -/
inductive Outcome where
  | done (st : BuildState)
  | keyError (name : String)
  | outOfFuel
deriving DecidableEq

/-- The `while to_process:` loop of `_execute` (lines 150-175), with an
explicit fuel bound.  Popping dereferences `control.tasks[...]` before
the processed-set check, so an absent queued name is fatal. -/
def runLoop (subtasks : Bool) (reg : Registry) :
    Nat → BuildState → Outcome
  | 0, st =>
    match st.queue with
    | [] => .done st
    | _ :: _ => .outOfFuel
  | fuel + 1, st =>
    match st.queue with
    | [] => .done st
    | name :: rest =>
      match lookupTask reg name with
      | none => .keyError name
      | some task =>
        if task.name ∈ st.processed then
          runLoop subtasks reg fuel { st with queue := rest }
        else
          match processTask subtasks reg task
              { st with queue := rest, processed := task.name :: st.processed } with
          | .ok st1 => runLoop subtasks reg fuel st1
          | .error e => .keyError e

/-- The keys of the registry dict, seeding whole-graph mode. -/
def registryKeys (reg : Registry) : List String :=
  (reg.map (fun t => t.name)).dedup

/-- Initial traversal state (lines 133-148): empty graph and sets, queue
seeded from `pos_args` or from the whole registry. -/
def initState (reg : Registry) (pos_args : List String) : BuildState :=
  { nodes := [], edges := [], edgeSeen := [], processed := [],
    queue := if pos_args.isEmpty then registryKeys reg else pos_args }

/-- A full build: run the traversal loop from the initial state. -/
def build (subtasks : Bool) (reg : Registry) (pos_args : List String)
    (fuel : Nat) : Outcome :=
  runLoop subtasks reg fuel (initState reg pos_args)

/-- Edges of a finished build (empty for a failed or unfinished one). -/
def outcomeEdges : Outcome → List GEdge
  | .done st => st.edges
  | _ => []

/-- Nodes of a finished build (empty for a failed or unfinished one). -/
def outcomeNodes : Outcome → List (String × Bool)
  | .done st => st.nodes
  | _ => []

/-- Whether the traversal loop ran to completion. -/
def outcomeIsDone : Outcome → Bool
  | .done _ => true
  | _ => false

/-- Default output name derivation (lines 177-179):
`pos_args[0] if len(pos_args) == 1 else "tasks"`, plus `".dot"`. -/
def defaultName (pos_args : List String) : String :=
  match pos_args with
  | [x] => x
  | _ => "tasks"

/-- The destination name actually written: the explicit `outfile` when
truthy, otherwise the derived default. -/
def deriveOutfile (outfile : Option String) (pos_args : List String) :
    String :=
  match outfile with
  | some s => if s.isEmpty then defaultName pos_args ++ ".dot" else s
  | none => defaultName pos_args ++ ".dot"

/-- One edge of `AGraph.reverse()`: endpoints swapped, attributes kept. -/
def reverseEdge (e : GEdge) : GEdge :=
  { e with source := e.sink, sink := e.source }

/-- `self.graph.reverse()` (line 182): a flipped copy of the edge set;
the accumulated graph itself is left untouched. -/
def reverseGraph (es : List GEdge) : List GEdge := es.map reverseEdge

/-- The edge set serialized by lines 181-184: the reversed copy when
`reverse` is set, the accumulated graph otherwise. -/
def emittedEdges (reverse : Bool) (es : List GEdge) : List GEdge :=
  if reverse then reverseGraph es else es

/-- Key of an edge: its ordered endpoint pair. -/
def edgeKey (e : GEdge) : String × String := (e.source, e.sink)

/-- Number of dependency entries a task contributes to the queue. -/
def taskDeg (t : Task) : Nat :=
  t.setup_tasks.length + t.task_dep.length

/-- Largest dependency count over the registry. -/
def maxDeg (reg : Registry) : Nat :=
  reg.foldr (fun t acc => max (taskDeg t) acc) 0

/-- Number of registry keys not yet in the processed set. -/
def unprocCount (reg : Registry) (processed : List String) : Nat :=
  ((registryKeys reg).filter (fun n => decide (n ∉ processed))).length

/-- Termination measure of the traversal loop: every iteration strictly
decreases it, because a skip shortens the queue and a fresh task trades
one unprocessed registry key for at most `maxDeg reg` queue entries. -/
def loopMeasure (reg : Registry) (st : BuildState) : Nat :=
  st.queue.length + (1 + maxDeg reg) * unprocCount reg st.processed

/-- A top-level task with only hard dependencies, for the scenarios. -/
def plainTask (name : String) (deps : List String) : Task :=
  { name := name, has_subtask := false, subtask_of := none,
    task_dep := deps, setup_tasks := [], file_dep := [], targets := [] }

/-- Diamond registry: `D` is depended on by both `B` and `C`, which are
both depended on by `A`. -/
def diamondReg : Registry :=
  [plainTask "A" ["B", "C"], plainTask "B" ["D"],
   plainTask "C" ["D"], plainTask "D" []]

/-- Registry with a collapsed group: parent `p`, sub-task `p:s`
depending on `q`. -/
def subtaskReg : Registry :=
  [{ name := "p", has_subtask := true, subtask_of := none,
     task_dep := [], setup_tasks := [], file_dep := [], targets := [] },
   { name := "p:s", has_subtask := false, subtask_of := some "p",
     task_dep := ["q"], setup_tasks := [], file_dep := [], targets := [] },
   plainTask "q" []]

/-- Registry where the same resolved pair is reached twice: task `a`
has `b` both as a setup task and as a hard dependency. -/
def twoRelReg : Registry :=
  [{ name := "a", has_subtask := false, subtask_of := none,
     task_dep := ["b"], setup_tasks := ["b"], file_dep := [], targets := [] },
   plainTask "b" []]

/-- Invariant of the accumulated graph state, maintained by the edge
accumulator and the traversal: edge keys are pairwise distinct and
mirror the seen-pair set, no edge is a self-loop, every endpoint is a
successfully resolved node identity, and every explicit node belongs to
a registry task that is top-level or shown because sub-task display is
enabled. -/
structure StInv (subtasks : Bool) (reg : Registry) (st : BuildState) :
    Prop where
  nodupKeys : (st.edges.map edgeKey).Nodup
  seenIff : ∀ p, p ∈ st.edgeSeen ↔ p ∈ st.edges.map edgeKey
  noSelf : ∀ e ∈ st.edges, e.source ≠ e.sink
  srcRes : ∀ e ∈ st.edges, ∃ n, nodeOf subtasks reg n = .ok e.source
  sinkRes : ∀ e ∈ st.edges, ∃ n, nodeOf subtasks reg n = .ok e.sink
  nodesOk : ∀ pr ∈ st.nodes, ∃ t, lookupTask reg pr.1 = some t ∧
    (optTruthy t.subtask_of = false ∨ subtasks = true)

/-- Two tasks joined by a file: `A` consumes `x/out.txt` which `B`
produces as `y/out.txt`. -/
def fileReg : Registry :=
  [{ name := "A", has_subtask := false, subtask_of := none,
     task_dep := ["B"], setup_tasks := [],
     file_dep := ["x/out.txt", "z.txt"], targets := [] },
   { name := "B", has_subtask := false, subtask_of := none,
     task_dep := [], setup_tasks := [], file_dep := [],
     targets := ["y/out.txt", "q.txt"] }]

/-! ## Helper lemmas -/

theorem updateLabelIn_map_shape (es : List GEdge) (a b l : String) :
    (updateLabelIn es a b l).map (fun e => (e.source, e.sink, e.arrowhead)) =
      es.map (fun e => (e.source, e.sink, e.arrowhead)) := by
  induction es with
  | nil => rfl
  | cons e rest ih =>
    simp only [updateLabelIn]
    split
    · simp
    · simpa using ih

theorem appendLabel_eq_match (lab : Option String) (l : String) :
    appendLabel lab l =
      (match lab with
       | some s => if s = "" then l else s ++ "\\n" ++ l
       | none => l) := by
  cases lab with
  | none => rfl
  | some s =>
    show (if s.isEmpty then l else s ++ "\\n" ++ l) =
      if s = "" then l else s ++ "\\n" ++ l
    by_cases hs : s = ""
    · subst hs; rfl
    · rw [if_neg (fun h => hs ((String.isEmpty_iff s).mp h)), if_neg hs]

theorem updateLabelIn_at_first (pre : List GEdge) (e : GEdge)
    (post : List GEdge) (a b l : String)
    (hpre : ∀ e' ∈ pre, ¬(e'.source = a ∧ e'.sink = b))
    (hs : e.source = a) (hk : e.sink = b) :
    updateLabelIn (pre ++ e :: post) a b l =
      pre ++ { e with label := some (appendLabel e.label l) } :: post := by
  induction pre with
  | nil => simp [updateLabelIn, hs, hk]
  | cons p rest ih =>
    simp only [List.cons_append, updateLabelIn]
    rw [if_neg (hpre p (by simp))]
    exact congrArg (p :: ·) (ih (fun e' he' => hpre e' (by simp [he'])))

theorem updateLabelIn_keys (es : List GEdge) (a b l : String) :
    (updateLabelIn es a b l).map edgeKey = es.map edgeKey := by
  induction es with
  | nil => rfl
  | cons e rest ih =>
    simp only [updateLabelIn]
    split
    · simp [edgeKey]
    · simpa using ih

theorem updateLabelIn_mem (es : List GEdge) (a b l : String) :
    ∀ e' ∈ updateLabelIn es a b l, ∃ e ∈ es,
      e'.source = e.source ∧ e'.sink = e.sink ∧
      e'.arrowhead = e.arrowhead := by
  induction es with
  | nil => intro e' h; simp [updateLabelIn] at h
  | cons e rest ih =>
    intro e' h
    simp only [updateLabelIn] at h
    by_cases hc : e.source = a ∧ e.sink = b
    · rw [if_pos hc] at h
      rcases List.mem_cons.mp h with rfl | hrest
      · exact ⟨e, List.mem_cons_self e rest, rfl, rfl, rfl⟩
      · exact ⟨e', List.mem_cons_of_mem e hrest, rfl, rfl, rfl⟩
    · rw [if_neg hc] at h
      rcases List.mem_cons.mp h with rfl | hrest
      · exact ⟨e', List.mem_cons_self _ rest, rfl, rfl, rfl⟩
      · obtain ⟨e0, he0, h1, h2, h3⟩ := ih e' hrest
        exact ⟨e0, List.mem_cons_of_mem e he0, h1, h2, h3⟩

theorem StInv.transport {subtasks : Bool} {reg : Registry}
    {st st' : BuildState} (h : StInv subtasks reg st)
    (he : st'.edges = st.edges) (hs : st'.edgeSeen = st.edgeSeen)
    (hn : st'.nodes = st.nodes) : StInv subtasks reg st' := by
  constructor
  · rw [he]; exact h.nodupKeys
  · intro p; rw [he, hs]; exact h.seenIff p
  · intro e hmem; rw [he] at hmem; exact h.noSelf e hmem
  · intro e hmem; rw [he] at hmem; exact h.srcRes e hmem
  · intro e hmem; rw [he] at hmem; exact h.sinkRes e hmem
  · intro pr hmem; rw [hn] at hmem; exact h.nodesOk pr hmem

theorem inv_after_update {subtasks : Bool} {reg : Registry}
    {st : BuildState} (a b l : String) (hinv : StInv subtasks reg st) :
    StInv subtasks reg { st with edges := updateLabelIn st.edges a b l } := by
  constructor
  · show ((updateLabelIn st.edges a b l).map edgeKey).Nodup
    rw [updateLabelIn_keys]; exact hinv.nodupKeys
  · intro p
    show p ∈ st.edgeSeen ↔ p ∈ (updateLabelIn st.edges a b l).map edgeKey
    rw [updateLabelIn_keys]; exact hinv.seenIff p
  · intro e' hm
    obtain ⟨e, he, hsrc, hsink, _⟩ := updateLabelIn_mem st.edges a b l e' hm
    rw [hsrc, hsink]; exact hinv.noSelf e he
  · intro e' hm
    obtain ⟨e, he, hsrc, _, _⟩ := updateLabelIn_mem st.edges a b l e' hm
    rw [hsrc]; exact hinv.srcRes e he
  · intro e' hm
    obtain ⟨e, he, _, hsink, _⟩ := updateLabelIn_mem st.edges a b l e' hm
    rw [hsink]; exact hinv.sinkRes e he
  · exact hinv.nodesOk

theorem inv_after_append {subtasks : Bool} {reg : Registry}
    {st : BuildState} {src_name sink_name a b : String}
    (ah : String) (lnew : Option String)
    (h1 : nodeOf subtasks reg src_name = .ok a)
    (h2 : nodeOf subtasks reg sink_name = .ok b)
    (hab : a ≠ b) (hseen : (a, b) ∉ st.edgeSeen)
    (hinv : StInv subtasks reg st) :
    StInv subtasks reg { st with
      edgeSeen := (a, b) :: st.edgeSeen,
      edges := st.edges ++
        [{ source := a, sink := b, arrowhead := ah, label := lnew }] } := by
  have hkeys : (a, b) ∉ st.edges.map edgeKey :=
    fun hx => hseen ((hinv.seenIff _).mpr hx)
  have hek : edgeKey ⟨a, b, ah, lnew⟩ = (a, b) := rfl
  constructor
  · show ((st.edges ++ [(⟨a, b, ah, lnew⟩ : GEdge)]).map edgeKey).Nodup
    rw [List.map_append]
    refine List.nodup_append.mpr ⟨hinv.nodupKeys, by simp, ?_⟩
    intro x hx hx'
    simp only [List.map_cons, List.map_nil, List.mem_singleton,
      hek] at hx'
    subst hx'
    exact hkeys hx
  · intro p
    show p ∈ (a, b) :: st.edgeSeen ↔
      p ∈ (st.edges ++ [(⟨a, b, ah, lnew⟩ : GEdge)]).map edgeKey
    rw [List.mem_cons, List.map_append, List.mem_append, hinv.seenIff p]
    simp only [List.map_cons, List.map_nil, List.mem_singleton, hek]
    tauto
  · intro e' hm
    rcases List.mem_append.mp hm with hold | hnew
    · exact hinv.noSelf e' hold
    · rcases List.mem_singleton.mp hnew with rfl
      exact hab
  · intro e' hm
    rcases List.mem_append.mp hm with hold | hnew
    · exact hinv.srcRes e' hold
    · rcases List.mem_singleton.mp hnew with rfl
      exact ⟨src_name, h1⟩
  · intro e' hm
    rcases List.mem_append.mp hm with hold | hnew
    · exact hinv.sinkRes e' hold
    · rcases List.mem_singleton.mp hnew with rfl
      exact ⟨sink_name, h2⟩
  · exact hinv.nodesOk

theorem add_edge_ok {subtasks : Bool} {reg : Registry} {st : BuildState}
    {src_name sink_name ah : String} {lab : Option String}
    {st' : BuildState}
    (h : add_edge subtasks reg st src_name sink_name ah lab = .ok st') :
    st'.nodes = st.nodes ∧ st'.processed = st.processed ∧
    st'.queue = st.queue ∧
    (StInv subtasks reg st → StInv subtasks reg st') := by
  cases h1 : nodeOf subtasks reg src_name with
  | error e => simp only [add_edge, h1] at h; cases h
  | ok a =>
  cases h2 : nodeOf subtasks reg sink_name with
  | error e => simp only [add_edge, h1, h2] at h; cases h
  | ok b =>
  cases lab with
  | none =>
    simp only [add_edge, h1, h2] at h
    by_cases hab : a = b
    · rw [if_pos hab] at h; cases h; exact ⟨rfl, rfl, rfl, id⟩
    rw [if_neg hab] at h
    by_cases hseen : (a, b) ∈ st.edgeSeen
    · rw [if_pos hseen] at h; cases h; exact ⟨rfl, rfl, rfl, id⟩
    · rw [if_neg hseen] at h
      cases h
      exact ⟨rfl, rfl, rfl, inv_after_append ah none h1 h2 hab hseen⟩
  | some l =>
    simp only [add_edge, h1, h2] at h
    by_cases hab : a = b
    · rw [if_pos hab] at h; cases h; exact ⟨rfl, rfl, rfl, id⟩
    rw [if_neg hab] at h
    by_cases hseen : (a, b) ∈ st.edgeSeen
    · rw [if_pos hseen] at h
      by_cases hl : l.isEmpty
      · rw [if_pos hl] at h; cases h; exact ⟨rfl, rfl, rfl, id⟩
      · rw [if_neg hl] at h
        cases h
        exact ⟨rfl, rfl, rfl, inv_after_update a b l⟩
    · rw [if_neg hseen] at h
      cases h
      exact ⟨rfl, rfl, rfl,
        inv_after_append ah (if l.isEmpty then none else some l)
          h1 h2 hab hseen⟩

theorem processSinks_ok {subtasks : Bool} {reg : Registry}
    {src ah : String} :
    ∀ (sinks : List String) {st st' : BuildState},
    processSinks subtasks reg src ah sinks st = .ok st' →
    st'.nodes = st.nodes ∧ st'.processed = st.processed ∧
    (∃ extra, st'.queue = st.queue ++ extra ∧
      extra.length ≤ sinks.length) ∧
    (StInv subtasks reg st → StInv subtasks reg st') := by
  intro sinks
  induction sinks with
  | nil =>
    intro st st' h
    cases h
    exact ⟨rfl, rfl, ⟨[], by simp, by simp⟩, id⟩
  | cons sink rest ih =>
    intro st st' h
    simp only [processSinks] at h
    cases hadd : add_edge subtasks reg st src sink ah
        (sinkLabel reg src sink) with
    | error e => rw [hadd] at h; cases h
    | ok st1 =>
      simp only [hadd] at h
      obtain ⟨hn1, hp1, hq1, hi1⟩ := add_edge_ok hadd
      by_cases hp : sink ∈ st1.processed
      · rw [if_pos hp] at h
        obtain ⟨hn, hpr, ⟨extra, hq, hlen⟩, hi⟩ := ih h
        refine ⟨hn.trans hn1, hpr.trans hp1, ⟨extra, ?_, ?_⟩, fun hinv => hi (hi1 hinv)⟩
        · rw [hq, hq1]
        · exact hlen.trans (Nat.le_succ _)
      · rw [if_neg hp] at h
        obtain ⟨hn, hpr, ⟨extra, hq, hlen⟩, hi⟩ := ih h
        refine ⟨hn.trans hn1, hpr.trans hp1, ⟨sink :: extra, ?_, ?_⟩, ?_⟩
        · rw [hq]
          show st1.queue ++ [sink] ++ extra = st.queue ++ (sink :: extra)
          rw [hq1, List.append_assoc]
          rfl
        · simpa using Nat.succ_le_succ hlen
        · intro hinv
          exact hi ((hi1 hinv).transport rfl rfl rfl)

theorem addNodeFor_inv (subtasks : Bool) (task : Task) (st : BuildState)
    (hinv : StInv subtasks reg st)
    (hlook : lookupTask reg task.name = some task) :
    StInv subtasks reg (addNodeFor subtasks task st) := by
  unfold addNodeFor
  split
  · next hcond =>
    refine ⟨hinv.nodupKeys, hinv.seenIff, hinv.noSelf, hinv.srcRes,
      hinv.sinkRes, ?_⟩
    intro pr hm
    rcases List.mem_append.mp hm with hold | hnew
    · exact hinv.nodesOk pr hold
    · rcases List.mem_singleton.mp hnew with rfl
      refine ⟨task, hlook, ?_⟩
      rcases Bool.or_eq_true _ _ |>.mp hcond with hx | hs
      · exact Or.inl (by simpa using hx)
      · exact Or.inr hs
  · exact hinv

theorem processTask_ok {subtasks : Bool} {reg : Registry} {task : Task}
    {st st' : BuildState}
    (h : processTask subtasks reg task st = .ok st') :
    st'.processed = st.processed ∧
    (∃ extra, st'.queue = st.queue ++ extra ∧
      extra.length ≤ taskDeg task) ∧
    (StInv subtasks reg st → lookupTask reg task.name = some task →
      StInv subtasks reg st') := by
  simp only [processTask] at h
  cases hsetup : processSinks subtasks reg task.name "empty"
      task.setup_tasks (addNodeFor subtasks task st) with
  | error e => rw [hsetup] at h; cases h
  | ok st1 =>
    simp only [hsetup] at h
    obtain ⟨hn1, hp1, ⟨ex1, hq1, hl1⟩, hi1⟩ := processSinks_ok _ hsetup
    obtain ⟨hn2, hp2, ⟨ex2, hq2, hl2⟩, hi2⟩ := processSinks_ok _ h
    have hnode_p : (addNodeFor subtasks task st).processed = st.processed := by
      unfold addNodeFor; split <;> rfl
    have hnode_q : (addNodeFor subtasks task st).queue = st.queue := by
      unfold addNodeFor; split <;> rfl
    refine ⟨hp2.trans (hp1.trans hnode_p), ⟨ex1 ++ ex2, ?_, ?_⟩, ?_⟩
    · rw [hq2, hq1, hnode_q, List.append_assoc]
    · rw [List.length_append]
      exact Nat.add_le_add hl1 hl2
    · intro hinv hlook
      refine hi2 (hi1 ?_)
      have hcond := addNodeFor_inv subtasks task st hinv hlook
      exact hcond

theorem lookupTask_name {reg : Registry} {name : String} {task : Task}
    (h : lookupTask reg name = some task) :
    task.name = name ∧ lookupTask reg task.name = some task := by
  have hbeq := List.find?_some h
  have hn : task.name = name := by simpa using hbeq
  exact ⟨hn, by rw [hn]; exact h⟩

theorem runLoop_done_inv {subtasks : Bool} {reg : Registry} :
    ∀ (fuel : Nat) {st st' : BuildState},
    runLoop subtasks reg fuel st = .done st' →
    StInv subtasks reg st → StInv subtasks reg st' := by
  intro fuel
  induction fuel with
  | zero =>
    intro st st' h hinv
    cases hq : st.queue with
    | nil => simp only [runLoop, hq] at h; cases h; exact hinv
    | cons name rest =>
      simp only [runLoop, hq] at h
      exact Outcome.noConfusion h
  | succ n ih =>
    intro st st' h hinv
    cases hq : st.queue with
    | nil => simp only [runLoop, hq] at h; cases h; exact hinv
    | cons name rest =>
      cases hl : lookupTask reg name with
      | none =>
        simp only [runLoop, hq, hl] at h
        exact Outcome.noConfusion h
      | some task =>
        simp only [runLoop, hq, hl] at h
        by_cases hp : task.name ∈ st.processed
        · rw [if_pos hp] at h
          exact ih h (hinv.transport rfl rfl rfl)
        · rw [if_neg hp] at h
          cases hpt : processTask subtasks reg task { st with queue := rest, processed := task.name :: st.processed } with
          | error e =>
            simp only [hpt] at h
            exact Outcome.noConfusion h
          | ok st1 =>
            simp only [hpt] at h
            have hlook := (lookupTask_name hl).2
            have hinv1 : StInv subtasks reg st1 :=
              (processTask_ok hpt).2.2 (hinv.transport rfl rfl rfl) hlook
            exact ih h hinv1

theorem initState_inv (subtasks : Bool) (reg : Registry)
    (pos_args : List String) :
    StInv subtasks reg (initState reg pos_args) := by
  refine ⟨?_, ?_, ?_, ?_, ?_, ?_⟩ <;> simp [initState]

theorem build_inv {subtasks : Bool} {reg : Registry}
    {pos_args : List String} {fuel : Nat} {st : BuildState}
    (h : build subtasks reg pos_args fuel = .done st) :
    StInv subtasks reg st :=
  runLoop_done_inv fuel h (initState_inv subtasks reg pos_args)

theorem count_key_le_one {es : List GEdge}
    (h : (es.map edgeKey).Nodup) (A B : String) :
    (es.filter (fun e => decide (e.source = A ∧ e.sink = B))).length ≤ 1 := by
  induction es with
  | nil => simp
  | cons e rest ih =>
    simp only [List.map_cons, List.nodup_cons] at h
    rw [List.filter_cons]
    by_cases hc : e.source = A ∧ e.sink = B
    · rw [if_pos (by simpa using hc)]
      have hrest : rest.filter
          (fun e => decide (e.source = A ∧ e.sink = B)) = [] := by
        rw [List.filter_eq_nil_iff]
        intro e' he' hdec
        have hc' : e'.source = A ∧ e'.sink = B := by simpa using hdec
        refine h.1 ?_
        rw [show edgeKey e = (A, B) by simp [edgeKey, hc.1, hc.2]]
        rw [show (A, B) = edgeKey e' by simp [edgeKey, hc'.1, hc'.2]]
        exact List.mem_map_of_mem edgeKey he'
      rw [hrest]
      simp
    · rw [if_neg (by simpa using hc)]
      exact ih h.2


theorem taskDeg_le_maxDeg {reg : Registry} {t : Task} (h : t ∈ reg) :
    taskDeg t ≤ maxDeg reg := by
  induction reg with
  | nil => cases h
  | cons t0 rest ih =>
    show taskDeg t ≤ max (taskDeg t0) (maxDeg rest)
    rcases List.mem_cons.mp h with rfl | hrest
    · exact le_max_left _ _
    · exact (ih hrest).trans (le_max_right _ _)

theorem filter_length_mono {α : Type} (l : List α) (p q : α → Bool)
    (h : ∀ a, q a = true → p a = true) :
    (l.filter q).length ≤ (l.filter p).length := by
  induction l with
  | nil => simp
  | cons a rest ih =>
    rw [List.filter_cons, List.filter_cons]
    by_cases hq : q a = true
    · rw [if_pos hq, if_pos (h a hq)]
      simpa using ih
    · rw [if_neg hq]
      by_cases hp : p a = true
      · rw [if_pos hp]
        exact ih.trans (by simp)
      · rw [if_neg hp]
        exact ih

theorem filter_length_strict (l : List String) (a : String)
    (p : List String) (hal : a ∈ l) (hap : a ∉ p) :
    (l.filter (fun n => decide (n ∉ (a :: p)))).length <
      (l.filter (fun n => decide (n ∉ p))).length := by
  induction l with
  | nil => cases hal
  | cons b rest ih =>
    rw [List.filter_cons, List.filter_cons]
    by_cases hb : b = a
    · subst hb
      rw [if_neg (by simp), if_pos (by simpa using hap)]
      refine Nat.lt_succ_of_le ?_
      refine filter_length_mono rest _ _ ?_
      intro n hn
      simp only [decide_eq_true_eq] at hn ⊢
      exact fun hmem => hn (List.mem_cons_of_mem _ hmem)
    · have hal2 : a ∈ rest := by
        rcases List.mem_cons.mp hal with rfl | hr
        · exact absurd rfl hb
        · exact hr
      by_cases hbp : b ∈ p
      · rw [if_neg (by simp [hbp]), if_neg (by simp [hbp])]
        exact ih hal2
      · rw [if_pos (by simp [hbp, hb]), if_pos (by simp [hbp])]
        exact Nat.succ_lt_succ (ih hal2)

theorem measure_arith {q e D u u2 n : Nat} (hu : u2 < u) (he : e ≤ D)
    (h : q + 1 + (1 + D) * u ≤ n + 1) : q + e + (1 + D) * u2 ≤ n := by
  have h2 : (1 + D) * (u2 + 1) ≤ (1 + D) * u := Nat.mul_le_mul_left _ hu
  have h3 : (1 + D) * (u2 + 1) = (1 + D) * u2 + (1 + D) := Nat.mul_succ _ _
  omega

theorem runLoop_no_fuel_exhaustion {subtasks : Bool} {reg : Registry} :
    ∀ (fuel : Nat) (st : BuildState), loopMeasure reg st ≤ fuel →
      runLoop subtasks reg fuel st ≠ .outOfFuel := by
  intro fuel
  induction fuel with
  | zero =>
    intro st h
    cases hq : st.queue with
    | nil => simp [runLoop, hq]
    | cons a r =>
      exfalso
      simp [loopMeasure, hq] at h
  | succ n ih =>
    intro st h
    cases hq : st.queue with
    | nil => simp [runLoop, hq]
    | cons name rest =>
      cases hl : lookupTask reg name with
      | none => simp [runLoop, hq, hl]
      | some task =>
        by_cases hp : task.name ∈ st.processed
        · have hm : loopMeasure reg { st with queue := rest } ≤ n := by
            simp only [loopMeasure, hq, List.length_cons] at h ⊢
            omega
          simp only [runLoop, hq, hl, if_pos hp]
          exact ih _ hm
        · cases hpt : processTask subtasks reg task { st with queue := rest, processed := task.name :: st.processed } with
          | error e =>
            simp only [runLoop, hq, hl, if_neg hp, hpt]
            intro hc
            cases hc
          | ok st1 =>
            have htmem : task ∈ reg := List.mem_of_find?_eq_some hl
            obtain ⟨hpr1, ⟨extra, hq1, hlen⟩, _⟩ := processTask_ok hpt
            have hdeg : taskDeg task ≤ maxDeg reg := taskDeg_le_maxDeg htmem
            have hkey : task.name ∈ registryKeys reg :=
              List.mem_dedup.mpr (List.mem_map_of_mem _ htmem)
            have hu : unprocCount reg (task.name :: st.processed) <
                unprocCount reg st.processed :=
              filter_length_strict (registryKeys reg) task.name
                st.processed hkey hp
            have hm : loopMeasure reg st1 ≤ n := by
              have hql : st1.queue.length = rest.length + extra.length := by
                rw [hq1]
                simp
              have hpl : st1.processed = task.name :: st.processed := hpr1
              rw [loopMeasure, hql, hpl]
              simp only [loopMeasure, hq, List.length_cons] at h
              exact measure_arith hu (hlen.trans hdeg) (by omega)
            simp only [runLoop, hq, hl, if_neg hp, hpt]
            exact ih _ hm

/-! ## The claims -/

/-- C7: with no explicit outfile, one root argument `"build"` yields
destination `"build.dot"`, and zero or several root arguments yield
`"tasks.dot"`. -/
theorem claim_C7_default_outfile :
    deriveOutfile none ["build"] = "build.dot" ∧
    deriveOutfile none [] = "tasks.dot" ∧
    ∀ pos_args : List String, pos_args.length ≠ 1 →
      deriveOutfile none pos_args = "tasks.dot" := by
  refine ⟨rfl, rfl, ?_⟩
  intro args h
  match args with
  | [] => rfl
  | [x] => exact absurd rfl h
  | _ :: _ :: _ => rfl

theorem claim_C7_default_outfile_witness :
    deriveOutfile none ["a", "b"] = "tasks.dot" :=
  claim_C7_default_outfile.2.2 ["a", "b"] (by decide)

/-- C10: with sub-task display enabled the node resolver returns its
argument without consulting the registry and never fails; the error
branch is reachable only with sub-task display disabled. -/
theorem claim_C10_resolver_total_when_subtasks :
    (∀ (reg : Registry) (n : String), nodeOf true reg n = .ok n) ∧
    (∀ (subtasks : Bool) (reg : Registry) (n e : String),
      nodeOf subtasks reg n = .error e → subtasks = false) := by
  constructor
  · intro reg n; rfl
  · intro subtasks reg n e h
    cases subtasks with
    | false => rfl
    | true => simp [nodeOf] at h

theorem claim_C10_resolver_total_when_subtasks_witness :
    nodeOf true [] "missing" = .ok "missing" ∧ false = false :=
  ⟨claim_C10_resolver_total_when_subtasks.1 [] "missing",
   claim_C10_resolver_total_when_subtasks.2 false [] "x" "x" rfl⟩

/-- C8: dereferencing an absent task identity is fatal: the traversal
loop returns a `KeyError` when it pops a queued identity missing from
the registry, and the node resolver errors on an absent identity when
sub-task display is disabled. -/
theorem claim_C8_absent_identity_fatal :
    (∀ (subtasks : Bool) (reg : Registry) (fuel : Nat) (st : BuildState)
      (name : String) (rest : List String),
      st.queue = name :: rest → lookupTask reg name = none →
      runLoop subtasks reg (fuel + 1) st = .keyError name) ∧
    (∀ (reg : Registry) (name : String),
      lookupTask reg name = none → nodeOf false reg name = .error name) := by
  constructor
  · intro subtasks reg fuel st name rest hq hl
    simp [runLoop, hq, hl]
  · intro reg name hl
    simp [nodeOf, hl]

theorem claim_C8_absent_identity_fatal_witness :
    runLoop false [] 1
      { nodes := [], edges := [], edgeSeen := [], processed := [],
        queue := ["ghost"] } = .keyError "ghost" ∧
    nodeOf false [] "ghost" = .error "ghost" :=
  ⟨claim_C8_absent_identity_fatal.1 false [] 0 _ "ghost" [] rfl rfl,
   claim_C8_absent_identity_fatal.2 [] "ghost" rfl⟩

/-- C6: with `reverse` set the emitted edge set is the flipped copy of
the accumulated graph (each edge keeps its arrowhead and label with
source and sink swapped), the accumulated graph itself is what is
emitted without `reverse`, and flipping twice restores the original
edge set. -/
theorem claim_C6_reverse_flips_edges :
    (∀ es : List GEdge, emittedEdges true es = reverseGraph es) ∧
    (∀ es : List GEdge, emittedEdges false es = es) ∧
    (∀ (es : List GEdge) (e : GEdge), e ∈ es →
      reverseEdge e ∈ reverseGraph es ∧
      (reverseEdge e).source = e.sink ∧ (reverseEdge e).sink = e.source ∧
      (reverseEdge e).arrowhead = e.arrowhead ∧
      (reverseEdge e).label = e.label) ∧
    (∀ es : List GEdge, reverseGraph (reverseGraph es) = es) := by
  refine ⟨fun es => rfl, fun es => rfl, ?_, ?_⟩
  · intro es e he
    exact ⟨List.mem_map_of_mem reverseEdge he, rfl, rfl, rfl, rfl⟩
  · intro es
    show (es.map reverseEdge).map reverseEdge = es
    rw [List.map_map]
    have : reverseEdge ∘ reverseEdge = id := by
      funext e; rfl
    rw [this, List.map_id]

theorem claim_C6_reverse_flips_edges_witness :
    reverseEdge ⟨"a", "b", "empty", some "f.txt"⟩ ∈
      reverseGraph [⟨"a", "b", "empty", some "f.txt"⟩] ∧
    (reverseEdge ⟨"a", "b", "empty", some "f.txt"⟩).source = "b" ∧
    (reverseEdge ⟨"a", "b", "empty", some "f.txt"⟩).sink = "a" ∧
    (reverseEdge ⟨"a", "b", "empty", some "f.txt"⟩).arrowhead = "empty" ∧
    (reverseEdge ⟨"a", "b", "empty", some "f.txt"⟩).label = some "f.txt" :=
  claim_C6_reverse_flips_edges.2.2.1
    [⟨"a", "b", "empty", some "f.txt"⟩]
    ⟨"a", "b", "empty", some "f.txt"⟩ (by simp)

/-- C9: when a relationship maps onto an already-seen resolved pair,
`add_edge` leaves every edge's endpoints and arrowhead unchanged (only a
label can change) and the seen-pair set unchanged, so the retained edge
keeps the arrowhead of the first relationship encountered and the later
relationship's arrowhead is discarded. -/
theorem claim_C9_arrowhead_kept_on_merge :
    ∀ (subtasks : Bool) (reg : Registry) (st : BuildState)
      (src sink ah : String) (lab : Option String) (st' : BuildState)
      (a b : String),
      nodeOf subtasks reg src = .ok a → nodeOf subtasks reg sink = .ok b →
      (a, b) ∈ st.edgeSeen →
      add_edge subtasks reg st src sink ah lab = .ok st' →
      st'.edges.map (fun e => (e.source, e.sink, e.arrowhead)) =
        st.edges.map (fun e => (e.source, e.sink, e.arrowhead)) ∧
      st'.edgeSeen = st.edgeSeen := by
  intro subtasks reg st src sink ah lab st' a b h1 h2 hseen hadd
  cases lab with
  | none =>
    simp only [add_edge, h1, h2] at hadd
    by_cases hab : a = b
    · rw [if_pos hab] at hadd
      cases hadd
      exact ⟨rfl, rfl⟩
    · rw [if_neg hab, if_pos hseen] at hadd
      cases hadd
      exact ⟨rfl, rfl⟩
  | some l =>
    simp only [add_edge, h1, h2] at hadd
    by_cases hab : a = b
    · rw [if_pos hab] at hadd
      cases hadd
      exact ⟨rfl, rfl⟩
    · rw [if_neg hab, if_pos hseen] at hadd
      by_cases hl : l.isEmpty
      · rw [if_pos hl] at hadd
        cases hadd
        exact ⟨rfl, rfl⟩
      · rw [if_neg hl] at hadd
        cases hadd
        exact ⟨updateLabelIn_map_shape st.edges a b l, rfl⟩

theorem claim_C9_arrowhead_kept_on_merge_witness :
    ([⟨"a", "b", "empty", some "g"⟩] : List GEdge).map
        (fun e => (e.source, e.sink, e.arrowhead)) =
      ([⟨"a", "b", "empty", none⟩] : List GEdge).map
        (fun e => (e.source, e.sink, e.arrowhead)) ∧
    ([("a", "b")] : List (String × String)) = [("a", "b")] :=
  claim_C9_arrowhead_kept_on_merge true []
    { nodes := [], edges := [⟨"a", "b", "empty", none⟩],
      edgeSeen := [("a", "b")], processed := [], queue := [] }
    "a" "b" "" (some "g")
    { nodes := [], edges := [⟨"a", "b", "empty", some "g"⟩],
      edgeSeen := [("a", "b")], processed := [], queue := [] }
    "a" "b" rfl rfl (by decide) (by rfl)


/-- C3: self-loops are elided: when both endpoints resolve to the same
node identity, `add_edge` returns the state unchanged (nothing is added
to the graph or to the seen-pairs set), and consequently no edge of a
finished build has identical resolved source and sink. -/
theorem claim_C3_self_loops_elided :
    (∀ (subtasks : Bool) (reg : Registry) (st : BuildState)
      (src sink ah : String) (lab : Option String) (a : String),
      nodeOf subtasks reg src = .ok a → nodeOf subtasks reg sink = .ok a →
      add_edge subtasks reg st src sink ah lab = .ok st) ∧
    (∀ (subtasks : Bool) (reg : Registry) (pos_args : List String)
      (fuel : Nat) (st : BuildState),
      build subtasks reg pos_args fuel = .done st →
      ∀ e ∈ st.edges, e.source ≠ e.sink) := by
  constructor
  · intro subtasks reg st src sink ah lab a h1 h2
    simp [add_edge, h1, h2]
  · intro subtasks reg pos_args fuel st h e he
    exact (build_inv h).noSelf e he

theorem claim_C3_self_loops_elided_witness :
    add_edge false subtaskReg (⟨[], [], [], [], []⟩ : BuildState)
      "p:s" "p" "" none = .ok (⟨[], [], [], [], []⟩ : BuildState) ∧
    (⟨"p", "q", "", none⟩ : GEdge).source ≠
      (⟨"p", "q", "", none⟩ : GEdge).sink :=
  ⟨claim_C3_self_loops_elided.1 false subtaskReg _ "p:s" "p" "" none
      "p" rfl rfl,
   claim_C3_self_loops_elided.2 false subtaskReg ["p:s"] 5
      (⟨[("q", false)], [⟨"p", "q", "", none⟩], [("p", "q")],
        ["q", "p:s"], []⟩ : BuildState)
      rfl ⟨"p", "q", "", none⟩ (by simp)⟩

/-- C1: after a full build, at most one edge object exists per resolved
pair (A, B); and when a relationship maps onto an already-seen pair with
a non-empty label, `add_edge` rewrites exactly the existing edge for
that pair, appending the new label after a newline (the new label
becomes the label when none existed). -/
theorem claim_C1_edge_dedup_and_label_merge :
    (∀ (subtasks : Bool) (reg : Registry) (pos_args : List String)
      (fuel : Nat) (st : BuildState),
      build subtasks reg pos_args fuel = .done st →
      ∀ A B : String,
        (st.edges.filter
          (fun e => decide (e.source = A ∧ e.sink = B))).length ≤ 1) ∧
    (∀ (subtasks : Bool) (reg : Registry) (st : BuildState)
      (src sink ah a b l : String) (pre post : List GEdge) (e : GEdge),
      nodeOf subtasks reg src = .ok a → nodeOf subtasks reg sink = .ok b →
      a ≠ b → (a, b) ∈ st.edgeSeen →
      st.edges = pre ++ e :: post →
      (∀ e2 ∈ pre, ¬(e2.source = a ∧ e2.sink = b)) →
      e.source = a → e.sink = b → l ≠ "" →
      add_edge subtasks reg st src sink ah (some l) =
        .ok { st with edges := pre ++
          { e with label := some (match e.label with
              | some s => if s = "" then l else s ++ "\\n" ++ l
              | none => l) } :: post }) := by
  constructor
  · intro subtasks reg pos_args fuel st h A B
    exact count_key_le_one (build_inv h).nodupKeys A B
  · intro subtasks reg st src sink ah a b l pre post e h1 h2 hab hseen
      hedges hpre hs hk hl
    have hlb : ¬(l.isEmpty = true) :=
      fun hx => hl ((String.isEmpty_iff l).mp hx)
    simp only [add_edge, h1, h2]
    rw [if_neg hab, if_pos hseen, if_neg hlb, hedges,
      updateLabelIn_at_first pre e post a b l hpre hs hk,
      appendLabel_eq_match]

theorem claim_C1_edge_dedup_and_label_merge_witness :
    (([⟨"a", "b", "empty", none⟩] : List GEdge).filter
      (fun e => decide (e.source = "a" ∧ e.sink = "b"))).length ≤ 1 ∧
    add_edge true []
      (⟨[], [⟨"x", "y", "", some "f.txt"⟩], [("x", "y")], [], []⟩ :
        BuildState)
      "x" "y" "empty" (some "g.txt") =
      .ok (⟨[], [⟨"x", "y", "", some "f.txt\\ng.txt"⟩], [("x", "y")],
        [], []⟩ : BuildState) :=
  ⟨claim_C1_edge_dedup_and_label_merge.1 false twoRelReg ["a"] 5
      (⟨[("a", false), ("b", false)], [⟨"a", "b", "empty", none⟩],
        [("a", "b")], ["b", "a"], []⟩ : BuildState)
      rfl "a" "b",
   claim_C1_edge_dedup_and_label_merge.2 true []
      (⟨[], [⟨"x", "y", "", some "f.txt"⟩], [("x", "y")], [], []⟩ :
        BuildState)
      "x" "y" "empty" "x" "y" "g.txt" [] []
      ⟨"x", "y", "", some "f.txt"⟩ rfl rfl (by decide) (by decide)
      rfl (by simp) rfl rfl (by decide)⟩

/-- C5: with `show_subtasks` disabled, a sub-task (truthy `subtask_of`)
never appears as its own graph node, and every edge endpoint is the
resolved parent identity (`subtask_of` when present and non-empty,
otherwise the task's own identity) of some registry task. -/
theorem claim_C5_subtasks_collapsed :
    ∀ (reg : Registry) (pos_args : List String) (fuel : Nat)
      (st : BuildState),
      build false reg pos_args fuel = .done st →
      (∀ (name : String) (t : Task) (fl : Bool),
        lookupTask reg name = some t → optTruthy t.subtask_of = true →
        (name, fl) ∉ st.nodes) ∧
      (∀ e ∈ st.edges,
        (∃ n t, lookupTask reg n = some t ∧ e.source = parentOr t n) ∧
        (∃ n t, lookupTask reg n = some t ∧ e.sink = parentOr t n)) := by
  intro reg pos_args fuel st h
  have hinv := build_inv h
  constructor
  · intro name t fl hlt htr hmem
    obtain ⟨t2, hlt2, hcond⟩ := hinv.nodesOk (name, fl) hmem
    rw [hlt] at hlt2
    cases hlt2
    rcases hcond with hfalse | habs
    · rw [htr] at hfalse; cases hfalse
    · cases habs
  · intro e he
    constructor
    · obtain ⟨n, hn⟩ := hinv.srcRes e he
      simp only [nodeOf, Bool.false_eq_true, if_false] at hn
      cases hlk : lookupTask reg n with
      | none => rw [hlk] at hn; cases hn
      | some t =>
        rw [hlk] at hn
        exact ⟨n, t, hlk, (Except.ok.injEq _ _).mp hn |>.symm⟩
    · obtain ⟨n, hn⟩ := hinv.sinkRes e he
      simp only [nodeOf, Bool.false_eq_true, if_false] at hn
      cases hlk : lookupTask reg n with
      | none => rw [hlk] at hn; cases hn
      | some t =>
        rw [hlk] at hn
        exact ⟨n, t, hlk, (Except.ok.injEq _ _).mp hn |>.symm⟩

theorem claim_C5_subtasks_collapsed_witness :
    ("p:s", false) ∉
      ([("q", false)] : List (String × Bool)) ∧
    (∃ n t, lookupTask subtaskReg n = some t ∧
      ("p" : String) = parentOr t n) :=
  ⟨(claim_C5_subtasks_collapsed subtaskReg ["p:s"] 5
      (⟨[("q", false)], [⟨"p", "q", "", none⟩], [("p", "q")],
        ["q", "p:s"], []⟩ : BuildState) rfl).1 "p:s"
      ⟨"p:s", false, some "p", ["q"], [], [], []⟩ false rfl rfl,
   ((claim_C5_subtasks_collapsed subtaskReg ["p:s"] 5
      (⟨[("q", false)], [⟨"p", "q", "", none⟩], [("p", "q")],
        ["q", "p:s"], []⟩ : BuildState) rfl).2
      ⟨"p", "q", "", none⟩ (by simp)).1⟩


/-- C2: the breadth-first traversal processes every reachable task
exactly once and terminates: in the concrete diamond (D depended on by
B and C, both depended on by A), building from root A completes and
produces exactly one node for D, exactly one edge B→D and exactly one
edge C→D; and for every registry and start state some fuel bound makes
the loop run to completion (the queue empties), diamonds and repeated
edges included. -/
theorem claim_C2_bfs_visits_once_and_terminates :
    outcomeIsDone (build false diamondReg ["A"] 10) = true ∧
    ((outcomeNodes (build false diamondReg ["A"] 10)).filter
      (fun pr => decide (pr.1 = "D"))).length = 1 ∧
    ((outcomeEdges (build false diamondReg ["A"] 10)).filter
      (fun e => decide (e.source = "B" ∧ e.sink = "D"))).length = 1 ∧
    ((outcomeEdges (build false diamondReg ["A"] 10)).filter
      (fun e => decide (e.source = "C" ∧ e.sink = "D"))).length = 1 ∧
    (outcomeEdges (build false diamondReg ["A"] 10)).length = 4 ∧
    (∀ (subtasks : Bool) (reg : Registry) (st : BuildState),
      ∃ fuel : Nat, runLoop subtasks reg fuel st ≠ .outOfFuel) := by
  refine ⟨by rfl, by rfl, by rfl, by rfl, by rfl, ?_⟩
  intro subtasks reg st
  exact ⟨loopMeasure reg st,
    runLoop_no_fuel_exhaustion (loopMeasure reg st) st le_rfl⟩


/-- C4: `get_connecting_files` returns the intersection of the basenames
of the source's `file_dep` with the basenames of the sink's `targets`,
sorted lexicographically without duplicates; the result only depends on
the two declared sets (any reordering of the inputs yields the same
sorted sequence); and an absent task or empty declarations yield the
empty sequence without error. -/
theorem claim_C4_connecting_files :
    (∀ (reg : Registry) (src sink : String) (ts tk : Task),
      lookupTask reg src = some ts → lookupTask reg sink = some tk →
      List.Sorted (· ≤ ·) (get_connecting_files reg src sink) ∧
      (get_connecting_files reg src sink).Nodup ∧
      (∀ x, x ∈ get_connecting_files reg src sink ↔
        (x ∈ ts.file_dep.map basename ∧ x ∈ tk.targets.map basename))) ∧
    (∀ ts ts2 tk tk2 : Task, ts.file_dep.Perm ts2.file_dep →
      tk.targets.Perm tk2.targets →
      connectingOfTasks ts tk = connectingOfTasks ts2 tk2) ∧
    (∀ (reg : Registry) (src sink : String),
      lookupTask reg src = none ∨ lookupTask reg sink = none →
      get_connecting_files reg src sink = []) ∧
    (∀ (reg : Registry) (src sink : String) (ts tk : Task),
      lookupTask reg src = some ts → lookupTask reg sink = some tk →
      ts.file_dep = [] ∨ tk.targets = [] →
      get_connecting_files reg src sink = []) := by
  refine ⟨?_, ?_, ?_, ?_⟩
  · intro reg src sink ts tk h1 h2
    have hun : get_connecting_files reg src sink =
        connectingOfTasks ts tk := by
      simp [get_connecting_files, h1, h2]
    rw [hun]
    refine ⟨List.sorted_insertionSort _ _, ?_, ?_⟩
    · exact (List.perm_insertionSort _ _).nodup_iff.mpr
        ((List.nodup_dedup _).filter _)
    · intro x
      show x ∈ List.insertionSort (· ≤ ·)
        ((ts.file_dep.map basename).dedup.filter
          (fun f => decide (f ∈ (tk.targets.map basename).dedup))) ↔ _
      rw [List.mem_insertionSort, List.mem_filter, List.mem_dedup]
      simp only [decide_eq_true_eq, List.mem_dedup]
  · intro ts ts2 tk tk2 hfd htg
    show List.insertionSort (· ≤ ·)
        ((ts.file_dep.map basename).dedup.filter
          (fun f => decide (f ∈ (tk.targets.map basename).dedup))) =
      List.insertionSort (· ≤ ·)
        ((ts2.file_dep.map basename).dedup.filter
          (fun f => decide (f ∈ (tk2.targets.map basename).dedup)))
    have hpred : ∀ f ∈ (ts.file_dep.map basename).dedup,
        (decide (f ∈ (tk.targets.map basename).dedup) : Bool) =
        decide (f ∈ (tk2.targets.map basename).dedup) := by
      intro f _
      apply decide_eq_decide.mpr
      constructor
      · intro h
        exact List.mem_dedup.mpr
          (((htg.map basename).mem_iff).mp (List.mem_dedup.mp h))
      · intro h
        exact List.mem_dedup.mpr
          (((htg.map basename).mem_iff).mpr (List.mem_dedup.mp h))
    have hperm : ((ts.file_dep.map basename).dedup.filter
        (fun f => decide (f ∈ (tk.targets.map basename).dedup))).Perm
        ((ts2.file_dep.map basename).dedup.filter
          (fun f => decide (f ∈ (tk2.targets.map basename).dedup))) := by
      rw [List.filter_congr hpred]
      exact List.Perm.filter _ ((hfd.map basename).dedup)
    exact List.eq_of_perm_of_sorted
      ((List.perm_insertionSort _ _).trans
        (hperm.trans (List.perm_insertionSort _ _).symm))
      (List.sorted_insertionSort _ _) (List.sorted_insertionSort _ _)
  · intro reg src sink h
    rcases h with h | h
    · simp [get_connecting_files, h]
    · cases h1 : lookupTask reg src with
      | none => simp [get_connecting_files, h1]
      | some ts => simp [get_connecting_files, h1, h]
  · intro reg src sink ts tk h1 h2 he
    have hun : get_connecting_files reg src sink =
        connectingOfTasks ts tk := by
      simp [get_connecting_files, h1, h2]
    rw [hun]
    rcases he with he | he <;> simp [connectingOfTasks, he]

theorem claim_C4_connecting_files_witness :
    List.Sorted (· ≤ ·) (get_connecting_files fileReg "A" "B") ∧
    ("out.txt" ∈ get_connecting_files fileReg "A" "B" ↔
      ("out.txt" ∈ (⟨"A", false, none, ["B"], [],
          ["x/out.txt", "z.txt"], []⟩ : Task).file_dep.map basename ∧
       "out.txt" ∈ (⟨"B", false, none, [], [], [],
          ["y/out.txt", "q.txt"]⟩ : Task).targets.map basename)) ∧
    connectingOfTasks
        (⟨"A", false, none, ["B"], [], ["x/out.txt", "z.txt"], []⟩ : Task)
        (⟨"B", false, none, [], [], [], ["y/out.txt", "q.txt"]⟩ : Task) =
      connectingOfTasks
        (⟨"A", false, none, ["B"], [], ["z.txt", "x/out.txt"], []⟩ : Task)
        (⟨"B", false, none, [], [], [], ["q.txt", "y/out.txt"]⟩ : Task) ∧
    get_connecting_files [] "A" "B" = [] :=
  ⟨(claim_C4_connecting_files.1 fileReg "A" "B"
      ⟨"A", false, none, ["B"], [], ["x/out.txt", "z.txt"], []⟩
      ⟨"B", false, none, [], [], [], ["y/out.txt", "q.txt"]⟩
      rfl rfl).1,
   (claim_C4_connecting_files.1 fileReg "A" "B"
      ⟨"A", false, none, ["B"], [], ["x/out.txt", "z.txt"], []⟩
      ⟨"B", false, none, [], [], [], ["y/out.txt", "q.txt"]⟩
      rfl rfl).2.2 "out.txt",
   claim_C4_connecting_files.2.1
      ⟨"A", false, none, ["B"], [], ["x/out.txt", "z.txt"], []⟩
      ⟨"A", false, none, ["B"], [], ["z.txt", "x/out.txt"], []⟩
      ⟨"B", false, none, [], [], [], ["y/out.txt", "q.txt"]⟩
      ⟨"B", false, none, [], [], [], ["q.txt", "y/out.txt"]⟩
      (by decide) (by decide),
   claim_C4_connecting_files.2.2.1 [] "A" "B" (Or.inl rfl)⟩

end DoitGraph
